import Mathlib

/-!
Verification of the HF2 packet fragmentation / defragmentation layer
(`command.rs`, two variants: the owned-vector `hf2` crate and the
borrowed-scratch root crate).  Bytes are modelled as `Nat` (with `< 256`
hypotheses where the 8-bit width matters), byte buffers as `List Nat`,
and the HID transport as the list of buffers its successive reads return.
-/

namespace HF2

/-- The four packet kinds, `PacketType` in the source (`Inner = 0`,
`Final = 1`, `StdOut = 2`, `Stderr = 3`). -/
inductive PacketType
  | Inner
  | Final
  | StdOut
  | Stderr
deriving DecidableEq, Repr

/-- The numeric discriminant of a `PacketType`, as in `PacketType as u8`. -/
def PacketType.code : PacketType → Nat
  | .Inner => 0
  | .Final => 1
  | .StdOut => 2
  | .Stderr => 3

/-- `PacketType::try_from` on a `u8` value: `0..3` map to the four kinds,
anything else is `Err(Error::Parse)` (modelled as `none`). -/
def packetTypeTryFrom : Nat → Option PacketType
  | 0 => some PacketType.Inner
  | 1 => some PacketType.Final
  | 2 => some PacketType.StdOut
  | 3 => some PacketType.Stderr
  | _ => none

/-- `CommandResponseStatus` (`Success = 0`, `ParseError = 1`,
`ExecutionError = 2`). -/
inductive CommandResponseStatus
  | Success
  | ParseError
  | ExecutionError
deriving DecidableEq, Repr

/-- The numeric discriminant of a `CommandResponseStatus`. -/
def CommandResponseStatus.code : CommandResponseStatus → Nat
  | .Success => 0
  | .ParseError => 1
  | .ExecutionError => 2

/-- `CommandResponseStatus::try_from` on a `u8` value: `0`, `1`, `2` map to
the three statuses, anything else is `Err(Error::Parse)`. -/
def commandResponseStatusTryFrom : Nat → Option CommandResponseStatus
  | 0 => some CommandResponseStatus.Success
  | 1 => some CommandResponseStatus.ParseError
  | 2 => some CommandResponseStatus.ExecutionError
  | _ => none

/-- `CommandResponse`: tag, status, status_info and the trailing opaque
data, exactly the fields parsed from the reassembled buffer. -/
structure CommandResponse where
  tag : Nat
  status : CommandResponseStatus
  status_info : Nat
  data : List Nat
deriving DecidableEq, Repr

/-- `CommandResponse::try_from` / `try_from_ctx` on the reassembled byte
buffer: fewer than 4 bytes is `Err(Error::Parse)`; otherwise `tag` is the
little-endian `u16` at bytes 0-1, byte 2 is mapped through
`CommandResponseStatus::try_from`, byte 3 is `status_info`, and bytes 4
onward become `data` uninterpreted. -/
def commandResponseTryFrom : List Nat → Option CommandResponse
  | b0 :: b1 :: b2 :: b3 :: rest =>
    match commandResponseStatusTryFrom b2 with
    | some s => some ⟨b0 + 256 * b1, s, b3, rest⟩
    | none => none
  | _ => none

/-- A logical outbound packet: its kind and its payload bytes (the bytes
that follow the header byte in the written report). -/
structure Packet where
  kind : PacketType
  payload : List Nat
deriving DecidableEq, Repr

/-- The packet's header byte, `(kind as u8) << 6 | length`, where the
length written by `xmit` is always the payload's byte count. -/
def headerByte (p : Packet) : Nat :=
  (p.kind.code <<< 6) ||| p.payload.length

/-- The bytes of a packet as written on the wire (the `hf2` crate variant
additionally prepends a `0x00` HID report-ID byte; the framing after that
byte is identical in both variants). -/
def packetBytes (p : Packet) : List Nat :=
  headerByte p :: p.payload

/-- Little-endian bytes of a `u32` (`gwrite_with(id, LE)`). -/
def u32LE (n : Nat) : List Nat :=
  [n % 256, n / 256 % 256, n / 2 ^ 16 % 256, n / 2 ^ 24 % 256]

/-- Little-endian bytes of a `u16` (`gwrite_with(tag, LE)`). -/
def u16LE (n : Nat) : List Nat :=
  [n % 256, n / 256 % 256]

/-- `slice.chunks(63)`: successive sub-slices of at most 63 bytes; an empty
slice yields no chunks. -/
def chunks63 (l : List Nat) : List (List Nat) :=
  if l = [] then []
  else l.take 63 :: chunks63 (l.drop 63)
termination_by l.length
decreasing_by
  have hl : 0 < l.length := List.length_pos.mpr (by assumption)
  simp only [List.length_drop]
  omega

/-- The tail packets of `xmit`: one packet per chunk of the remaining data,
carrying the running `count` exactly as the source does — after adding the
chunk's length, `count == data.len()` selects `Final`, otherwise `Inner`. -/
def tailPackets (total : Nat) : Nat → List (List Nat) → List Packet
  | _, [] => []
  | count, c :: rest =>
    (if count + c.length = total then Packet.mk PacketType.Final c
     else Packet.mk PacketType.Inner c) :: tailPackets total (count + c.length) rest

/-- `xmit(id, tag, data)` as the ordered list of logical packets it writes:
the first packet holds the 8-byte little-endian command header (`id`,
`tag`, two reserved zero bytes) plus up to the first 55 bytes of `data`;
if that exhausts `data` it is the single `Final` packet, otherwise it is
`Inner` and the rest of `data` is sent in chunks of at most 63 bytes,
all `Inner` except the last, which is `Final`. -/
def xmit (id tag : Nat) (data : List Nat) : List Packet :=
  let count := if data.length > 55 then 55 else data.length
  let firstPayload := u32LE id ++ u16LE tag ++ [0, 0] ++ data.take count
  if count = data.length then
    [Packet.mk PacketType.Final firstPayload]
  else
    Packet.mk PacketType.Inner firstPayload ::
      tailPackets data.length count (chunks63 (data.drop count))

/-- The packet kind as read by `rx`: the header byte shifted right by 6,
`buffer[0] >> 6`. -/
def kindOf (hdr : Nat) : Nat := hdr >>> 6

/-- The declared payload length as read by `rx`: the low 6 bits of the
header byte, `buffer[0] & 0x3F`. -/
def lenOf (hdr : Nat) : Nat := hdr &&& 63

/-- The payload bytes a received buffer contributes to the accumulation:
the `len` bytes right after the header byte, `buffer[1..=len]`. -/
def declaredBytes (r : List Nat) : List Nat :=
  (r.drop 1).take (lenOf r.headI)

/-- A received buffer that `rx` consumes without error: nonempty, a kind
value the decoder accepts, and a declared length below the byte count. -/
def validPacket (r : List Nat) : Prop :=
  r ≠ [] ∧ kindOf r.headI ≤ 3 ∧ lenOf r.headI < r.length

instance (r : List Nat) : Decidable (validPacket r) := by
  unfold validPacket; infer_instance

/-- Outcome of the `hf2`-crate `rx` reassembly loop. -/
inductive RxOutcome
  | success (acc : List Nat)
  | parseError
  | incomplete
deriving DecidableEq, Repr

/-- The `hf2`-crate `rx` reassembly loop over the list of buffers the
successive `my_read` calls return.  An empty read consumes one unit of the
retry budget (`retries`, an `i32` starting at 5, checked with
`retries <= 0` before the decrement) or fails with `Parse` when the budget
is exhausted; a nonempty read has its header byte decoded
(`PacketType::try_from(buffer[0] >> 6)`, `len = buffer[0] & 0x3F`), fails
with `Parse` when `len >= count`, and otherwise appends
`buffer[1..=len]` to the accumulation, looping exactly while the kind is
`Inner`.  Exhausting the read list mid-loop is `incomplete` (the real
transport would block). -/
def rxLoop : List (List Nat) → Nat → List Nat → RxOutcome
  | [], _, _ => .incomplete
  | r :: rs, retries, acc =>
    if r.length < 1 then
      if retries = 0 then .parseError
      else rxLoop rs (retries - 1) acc
    else
      match packetTypeTryFrom (kindOf r.headI) with
      | none => .parseError
      | some ptype =>
        if r.length ≤ lenOf r.headI then .parseError
        else
          if ptype = PacketType.Inner then
            rxLoop rs retries (acc ++ declaredBytes r)
          else .success (acc ++ declaredBytes r)

/-- Final outcome of the `hf2`-crate `rx`. -/
inductive RxFinal
  | ok (resp : CommandResponse)
  | parseError
  | incomplete
deriving DecidableEq, Repr

/-- The `hf2`-crate `rx`: run the reassembly loop with a retry budget of 5
and an empty accumulation, then parse the accumulated bytes as a
`CommandResponse`. -/
def rx (reads : List (List Nat)) : RxFinal :=
  match rxLoop reads 5 [] with
  | .success acc =>
    match commandResponseTryFrom acc with
    | some resp => .ok resp
    | none => .parseError
  | .parseError => .parseError
  | .incomplete => .incomplete

/-- Outcome of the borrowed-scratch (root crate) `rx`, whose writes into
the caller-supplied `bitsnbytes` slice are by unchecked indexing: `panic`
is the out-of-bounds index panic. -/
inductive RxbResult
  | ok (resp : CommandResponse)
  | parseError
  | panic
  | incomplete
deriving DecidableEq, Repr

/-- The borrowed-scratch `rx` loop: no retry budget (an empty read fails
with `Parse` at once); a nonempty read is decoded as in the other variant,
and its `len` declared bytes are written into the scratch slice at
`bitsnbytes[offset + i]` — when `len > 0` and `offset + len` exceeds the
scratch length, that indexing panics.  On the terminal packet the first
`offset` scratch bytes (exactly the written bytes, tracked here as `acc`)
are parsed as a `CommandResponse`. -/
def rxbLoop (scratchLen : Nat) : List (List Nat) → Nat → List Nat → RxbResult
  | [], _, _ => .incomplete
  | r :: rs, offset, acc =>
    if r.length < 1 then .parseError
    else
      match packetTypeTryFrom (kindOf r.headI) with
      | none => .parseError
      | some ptype =>
        if r.length ≤ lenOf r.headI then .parseError
        else if 0 < lenOf r.headI ∧ scratchLen < offset + lenOf r.headI then .panic
        else
          if ptype = PacketType.Inner then
            rxbLoop scratchLen rs (offset + lenOf r.headI) (acc ++ declaredBytes r)
          else
            match commandResponseTryFrom (acc ++ declaredBytes r) with
            | some resp => .ok resp
            | none => .parseError

/-- The borrowed-scratch `rx`, over a scratch slice of `scratchLen` bytes. -/
def rxb (scratchLen : Nat) (reads : List (List Nat)) : RxbResult :=
  rxbLoop scratchLen reads 0 []

/-- The transport-level reconstruction of claim C1: for each emitted
packet, strip the header byte and keep only the number of payload bytes
its 6-bit length field declares, then concatenate in emission order. -/
def transportConcat (ps : List Packet) : List Nat :=
  (ps.map (fun p => declaredBytes (packetBytes p))).flatten

/-- A read list made of gap-then-packet groups: before each packet the
transport yields the given number of empty (0-byte) reads. -/
def readsOf : List (Nat × List Nat) → List (List Nat)
  | [] => []
  | (g, p) :: rest => List.replicate g [] ++ p :: readsOf rest

/-! ### Helper lemmas -/

theorem kindOf_eq (h : Nat) : kindOf h = h / 64 := by
  simp [kindOf, Nat.shiftRight_eq_div_pow]

theorem lenOf_eq (h : Nat) : lenOf h = h % 64 := by
  have h1 := Nat.and_pow_two_sub_one_eq_mod h 6
  norm_num at h1
  simpa [lenOf] using h1

set_option maxRecDepth 4096 in
theorem shiftOr_eq : ∀ a, a < 4 → ∀ b, b < 64 → (a <<< 6) ||| b = a * 64 + b := by
  decide

theorem PacketType.code_le_three (t : PacketType) : t.code ≤ 3 := by
  cases t <;> simp [PacketType.code]

theorem headerByte_eq (p : Packet) (h : p.payload.length ≤ 63) :
    headerByte p = p.kind.code * 64 + p.payload.length := by
  have hc := p.kind.code_le_three
  exact shiftOr_eq p.kind.code (by omega) p.payload.length (by omega)

theorem lenOf_headerByte (p : Packet) (h : p.payload.length ≤ 63) :
    lenOf (headerByte p) = p.payload.length := by
  have hc := p.kind.code_le_three
  rw [lenOf_eq, headerByte_eq p h]
  omega

theorem kindOf_headerByte (p : Packet) (h : p.payload.length ≤ 63) :
    kindOf (headerByte p) = p.kind.code := by
  have hc := p.kind.code_le_three
  rw [kindOf_eq, headerByte_eq p h]
  omega

theorem declaredBytes_packetBytes (p : Packet) (h : p.payload.length ≤ 63) :
    declaredBytes (packetBytes p) = p.payload := by
  simp [declaredBytes, packetBytes, lenOf_headerByte p h]

theorem chunks63_nil : chunks63 [] = [] := by
  rw [chunks63]
  simp

theorem chunks63_cons (l : List Nat) (h : l ≠ []) :
    chunks63 l = l.take 63 :: chunks63 (l.drop 63) := by
  rw [chunks63]
  simp [h]

theorem chunks63_flatten (l : List Nat) : (chunks63 l).flatten = l := by
  induction l using chunks63.induct with
  | case1 => simp [chunks63_nil]
  | case2 l h ih =>
    rw [chunks63_cons l h]
    simp [ih]

theorem chunks63_mem_length (l : List Nat) (c : List Nat) (hc : c ∈ chunks63 l) :
    c.length ≤ 63 := by
  induction l using chunks63.induct with
  | case1 => simp [chunks63_nil] at hc
  | case2 l h ih =>
    rw [chunks63_cons l h] at hc
    rcases List.mem_cons.mp hc with hc | hc
    · subst hc
      simp
    · exact ih hc

theorem chunks63_mem_ne_nil (l : List Nat) (c : List Nat) (hc : c ∈ chunks63 l) :
    c ≠ [] := by
  induction l using chunks63.induct with
  | case1 => simp [chunks63_nil] at hc
  | case2 l h ih =>
    rw [chunks63_cons l h] at hc
    rcases List.mem_cons.mp hc with hc | hc
    · subst hc
      have : 0 < l.length := List.length_pos.mpr h
      simp only [ne_eq, ← List.length_pos, List.length_take]
      omega
    · exact ih hc

theorem chunks63_length (l : List Nat) :
    (chunks63 l).length = (l.length + 62) / 63 := by
  induction l using chunks63.induct with
  | case1 => simp [chunks63_nil]
  | case2 l h ih =>
    rw [chunks63_cons l h]
    have hl : 0 < l.length := List.length_pos.mpr h
    simp only [List.length_cons, ih, List.length_drop]
    omega

theorem tailPackets_map_payload (total : Nat) (count : Nat) (cs : List (List Nat)) :
    (tailPackets total count cs).map Packet.payload = cs := by
  induction cs generalizing count with
  | nil => simp [tailPackets]
  | cons c rest ih =>
    simp only [tailPackets]
    by_cases h : count + c.length = total <;> simp [h, ih]

theorem tailPackets_length (total : Nat) (count : Nat) (cs : List (List Nat)) :
    (tailPackets total count cs).length = cs.length := by
  have := tailPackets_map_payload total count cs
  calc (tailPackets total count cs).length
      = ((tailPackets total count cs).map Packet.payload).length := by simp
    _ = cs.length := by rw [this]

theorem chunks63_sum_length (l : List Nat) :
    ((chunks63 l).map List.length).sum = l.length := by
  have h1 := chunks63_flatten l
  have h2 := List.length_flatten (chunks63 l)
  rw [h1] at h2
  omega

theorem xmit_small (id tag : Nat) (data : List Nat) (h : data.length ≤ 55) :
    xmit id tag data =
      [Packet.mk PacketType.Final (u32LE id ++ u16LE tag ++ [0, 0] ++ data)] := by
  have hc : ¬ data.length > 55 := by omega
  simp [xmit, hc, List.take_length]

theorem xmit_large (id tag : Nat) (data : List Nat) (h : 55 < data.length) :
    xmit id tag data =
      Packet.mk PacketType.Inner (u32LE id ++ u16LE tag ++ [0, 0] ++ data.take 55) ::
        tailPackets data.length 55 (chunks63 (data.drop 55)) := by
  have hc : data.length > 55 := h
  have hne : ¬ (55 = data.length) := by omega
  simp [xmit, hc, hne]

theorem first_payload_length (id tag : Nat) (l : List Nat) :
    (u32LE id ++ u16LE tag ++ [0, 0] ++ l).length = 8 + l.length := by
  simp [u32LE, u16LE]
  omega

theorem xmit_payload_le (id tag : Nat) (data : List Nat) (p : Packet)
    (hp : p ∈ xmit id tag data) : p.payload.length ≤ 63 := by
  rcases Nat.le_total data.length 55 with h | h
  · rw [xmit_small id tag data h] at hp
    simp only [List.mem_singleton] at hp
    subst hp
    have := first_payload_length id tag data
    simp only [Packet.payload] at this ⊢
    omega
  · rcases Nat.eq_or_lt_of_le h with h | h
    · rw [xmit_small id tag data (by omega)] at hp
      simp only [List.mem_singleton] at hp
      subst hp
      have := first_payload_length id tag data
      simp only [Packet.payload] at this ⊢
      omega
    · rw [xmit_large id tag data h] at hp
      rcases List.mem_cons.mp hp with hp | hp
      · subst hp
        have := first_payload_length id tag (data.take 55)
        have h2 : (data.take 55).length ≤ 55 := by
          simp
        simp only [Packet.payload] at this ⊢
        omega
      · have hmem : p.payload ∈ chunks63 (data.drop 55) := by
          have := List.mem_map_of_mem Packet.payload hp
          rwa [tailPackets_map_payload] at this
        exact chunks63_mem_length _ _ hmem

theorem xmit_payloads_flatten (id tag : Nat) (data : List Nat) :
    ((xmit id tag data).map Packet.payload).flatten =
      u32LE id ++ u16LE tag ++ [0, 0] ++ data := by
  rcases Nat.le_total data.length 55 with h | h
  · rw [xmit_small id tag data h]
    simp
  · rcases Nat.eq_or_lt_of_le h with h | h
    · rw [xmit_small id tag data (by omega)]
      simp
    · rw [xmit_large id tag data h]
      simp only [List.map_cons, List.flatten_cons, tailPackets_map_payload,
        chunks63_flatten]
      simp [List.append_assoc]

theorem tailPackets_cons (total count : Nat) (c : List Nat) (rest : List (List Nat)) :
    tailPackets total count (c :: rest) =
      (if count + c.length = total then Packet.mk PacketType.Final c
       else Packet.mk PacketType.Inner c) ::
        tailPackets total (count + c.length) rest := rfl

theorem tailPackets_kinds (total : Nat) (cs : List (List Nat)) :
    ∀ count, cs ≠ [] → (∀ c ∈ cs, c ≠ []) →
    count + (cs.map List.length).sum = total → count < total →
    ∃ qs q, tailPackets total count cs = qs ++ [q] ∧
      q.kind = PacketType.Final ∧ ∀ x ∈ qs, x.kind = PacketType.Inner := by
  induction cs with
  | nil => intro count hne; exact absurd rfl hne
  | cons c rest ih =>
    intro count _ hnn hsum hlt
    cases rest with
    | nil =>
      have hcount : count + c.length = total := by simpa using hsum
      refine ⟨[], Packet.mk PacketType.Final c, ?_, rfl, by simp⟩
      rw [tailPackets_cons]
      simp [hcount, tailPackets]
    | cons c2 rest2 =>
      have hc2 : c2 ≠ [] := hnn c2 (by simp)
      have hc2len : 0 < c2.length := List.length_pos.mpr hc2
      have hsum2 : (count + c.length) + ((c2 :: rest2).map List.length).sum = total := by
        simp only [List.map_cons, List.sum_cons] at hsum ⊢
        omega
      have hlt2 : count + c.length < total := by
        simp only [List.map_cons, List.sum_cons] at hsum2
        omega
      have hne2 : count + c.length ≠ total := by omega
      obtain ⟨qs, q, heq, hq, hqs⟩ :=
        ih (count + c.length) (by simp) (fun x hx => hnn x (by simp [hx])) hsum2 hlt2
      refine ⟨Packet.mk PacketType.Inner c :: qs, q, ?_, hq, ?_⟩
      · rw [tailPackets_cons]
        simp [hne2, heq]
      · intro x hx
        rcases List.mem_cons.mp hx with hx | hx
        · subst hx; rfl
        · exact hqs x hx

theorem xmit_kinds (id tag : Nat) (data : List Nat) :
    ∃ qs q, xmit id tag data = qs ++ [q] ∧
      q.kind = PacketType.Final ∧ ∀ x ∈ qs, x.kind = PacketType.Inner := by
  rcases Nat.le_total data.length 55 with h | h
  · exact ⟨[], _, by rw [xmit_small id tag data h]; rfl, rfl, by simp⟩
  · rcases Nat.eq_or_lt_of_le h with h | h
    · exact ⟨[], _, by rw [xmit_small id tag data (by omega)]; rfl, rfl, by simp⟩
    · have hdrop : (data.drop 55).length = data.length - 55 := by simp
      have hne : data.drop 55 ≠ [] := by
        rw [← List.length_pos]
        omega
      have hcne : chunks63 (data.drop 55) ≠ [] := by
        rw [chunks63_cons _ hne]
        simp
      have hsum : 55 + ((chunks63 (data.drop 55)).map List.length).sum = data.length := by
        rw [chunks63_sum_length]
        omega
      obtain ⟨qs, q, heq, hq, hqs⟩ :=
        tailPackets_kinds data.length (chunks63 (data.drop 55)) 55 hcne
          (chunks63_mem_ne_nil _) hsum (by omega)
      refine ⟨Packet.mk PacketType.Inner (u32LE id ++ u16LE tag ++ [0, 0] ++ data.take 55)
        :: qs, q, ?_, hq, ?_⟩
      · rw [xmit_large id tag data h, heq]
        rfl
      · intro x hx
        rcases List.mem_cons.mp hx with hx | hx
        · subst hx; rfl
        · exact hqs x hx

/-- C1: Round-trip: for every command id, tag and data, emitting the
packets with `xmit`, then stripping each packet's header byte and keeping
only the number of payload bytes declared in its 6-bit length field, and
concatenating in emission order, yields the 4 little-endian bytes of `id`,
the 2 little-endian bytes of `tag`, 2 zero bytes, and then `data` exactly. -/
theorem claim_c1_round_trip (id tag : Nat) (data : List Nat) :
    transportConcat (xmit id tag data) = u32LE id ++ u16LE tag ++ [0, 0] ++ data ∧
    (transportConcat (xmit id tag data)).take 4 = u32LE id ∧
    ((transportConcat (xmit id tag data)).drop 4).take 2 = u16LE tag ∧
    ((transportConcat (xmit id tag data)).drop 6).take 2 = [0, 0] ∧
    (transportConcat (xmit id tag data)).drop 8 = data := by
  have hmap : (xmit id tag data).map (fun p => declaredBytes (packetBytes p)) =
      (xmit id tag data).map Packet.payload := by
    apply List.map_congr_left
    intro p hp
    exact declaredBytes_packetBytes p (xmit_payload_le id tag data p hp)
  have hmain : transportConcat (xmit id tag data) =
      u32LE id ++ u16LE tag ++ [0, 0] ++ data := by
    rw [transportConcat, hmap, xmit_payloads_flatten]
  refine ⟨hmain, ?_, ?_, ?_, ?_⟩ <;> rw [hmain] <;> simp [u32LE, u16LE]

/-- C2: Chunk-count law: `xmit` emits 1 packet when `8 + L ≤ 63`, and
otherwise `1 + ceil((L - 55) / 63)` packets (written with natural-number
division as `1 + (L - 55 + 62) / 63`), where 63 is the maximum per-packet
payload and 55 = 63 - 8 the data room of the first packet. -/
theorem claim_c2_chunk_count (id tag : Nat) (data : List Nat) :
    (xmit id tag data).length =
      if 8 + data.length ≤ 63 then 1 else 1 + (data.length - 55 + 62) / 63 := by
  rcases Nat.le_total data.length 55 with h | h
  · rw [xmit_small id tag data h, if_pos (by omega)]
    rfl
  · rcases Nat.eq_or_lt_of_le h with h | h
    · rw [xmit_small id tag data (by omega), if_pos (by omega)]
      rfl
    · rw [xmit_large id tag data h, if_neg (by omega)]
      simp only [List.length_cons, tailPackets_length, chunks63_length, List.length_drop]
      omega

/-- C3: for every id, tag and data, the packet sequence emitted by `xmit`
ends in exactly one packet whose kind (the top 2 bits of its header byte)
is `Final` (= 1), and every earlier packet's kind is `Inner` (= 0). -/
theorem claim_c3_single_final_last (id tag : Nat) (data : List Nat) :
    ∃ qs q, xmit id tag data = qs ++ [q] ∧
      kindOf (headerByte q) = PacketType.Final.code ∧
      ∀ x ∈ qs, kindOf (headerByte x) = PacketType.Inner.code := by
  obtain ⟨qs, q, heq, hq, hqs⟩ := xmit_kinds id tag data
  have hqmem : q ∈ xmit id tag data := by
    rw [heq]
    simp
  refine ⟨qs, q, heq, ?_, ?_⟩
  · rw [kindOf_headerByte q (xmit_payload_le id tag data q hqmem), hq]
  · intro x hx
    have hxmem : x ∈ xmit id tag data := by
      rw [heq]
      simp [hx]
    rw [kindOf_headerByte x (xmit_payload_le id tag data x hxmem), hqs x hx]

/-- C8: the first packet's payload is the 8-byte little-endian command
header (id, tag, two zero bytes) followed by up to 55 leading data bytes,
and its header byte's 6-bit length field is 8 plus the number of data
bytes copied; empty data yields exactly one Final packet whose payload is
only the 8-byte command header. -/
theorem claim_c8_first_packet (id tag : Nat) (data : List Nat) :
    (∃ p rest, xmit id tag data = p :: rest ∧
       p.payload = u32LE id ++ u16LE tag ++ [0, 0] ++ data.take 55 ∧
       lenOf (headerByte p) = 8 + min data.length 55) ∧
    (data = [] → xmit id tag data =
       [Packet.mk PacketType.Final (u32LE id ++ u16LE tag ++ [0, 0])]) := by
  constructor
  · have hfirst : ∃ p rest, xmit id tag data = p :: rest ∧
        p.payload = u32LE id ++ u16LE tag ++ [0, 0] ++
          data.take (if data.length > 55 then 55 else data.length) := by
      by_cases hc : data.length > 55
      · refine ⟨_, _, xmit_large id tag data hc, ?_⟩
        simp [hc]
      · refine ⟨_, _, xmit_small id tag data (by omega), ?_⟩
        simp [hc]
    obtain ⟨p, rest, heq, hpay⟩ := hfirst
    have htake : data.take (if data.length > 55 then 55 else data.length) =
        data.take 55 := by
      by_cases hc : data.length > 55
      · simp [hc]
      · rw [if_neg hc, List.take_length, List.take_of_length_le (by omega)]
    have hlen : p.payload.length = 8 + min data.length 55 := by
      rw [hpay, htake, first_payload_length, List.length_take, Nat.min_comm]
    refine ⟨p, rest, heq, by rw [hpay, htake], ?_⟩
    rw [lenOf_headerByte p (by omega), hlen]
  · intro hdata
    subst hdata
    rw [xmit_small id tag [] (by simp)]
    rfl

/-- Witness for C8 at concrete inputs: for empty data, `xmit` emits the
single Final packet holding only the 8-byte command header. -/
theorem claim_c8_first_packet_witness :
    xmit 6 4 [] = [Packet.mk PacketType.Final (u32LE 6 ++ u16LE 4 ++ [0, 0])] :=
  (claim_c8_first_packet 6 4 []).2 rfl

theorem rxLoop_cons_empty (rs : List (List Nat)) (retries : Nat) (acc : List Nat) :
    rxLoop ([] :: rs) retries acc =
      if retries = 0 then RxOutcome.parseError else rxLoop rs (retries - 1) acc := by
  simp [rxLoop]

theorem rxLoop_cons_packet (r : List Nat) (rs : List (List Nat)) (retries : Nat)
    (acc : List Nat) (hne : r ≠ []) (hkind : kindOf r.headI ≤ 3)
    (hlen : lenOf r.headI < r.length) :
    rxLoop (r :: rs) retries acc =
      if kindOf r.headI = 0 then rxLoop rs retries (acc ++ declaredBytes r)
      else RxOutcome.success (acc ++ declaredBytes r) := by
  have hpos : 0 < r.length := List.length_pos.mpr hne
  have hnlt : ¬ r.length < 1 := by omega
  have hnle : ¬ r.length ≤ lenOf r.headI := by omega
  have h4 : kindOf r.headI = 0 ∨ kindOf r.headI = 1 ∨ kindOf r.headI = 2 ∨
      kindOf r.headI = 3 := by omega
  rcases h4 with h | h | h | h <;>
    simp [rxLoop, hnlt, hnle, h, packetTypeTryFrom]

theorem rxLoop_skip_empty (g : Nat) :
    ∀ (retries : Nat) (acc : List Nat) (rs : List (List Nat)), g ≤ retries →
      rxLoop (List.replicate g [] ++ rs) retries acc = rxLoop rs (retries - g) acc := by
  induction g with
  | zero =>
    intro retries acc rs _
    simp
  | succ n ih =>
    intro retries acc rs h
    have hr : ¬ (retries = 0) := by omega
    rw [List.replicate_succ, List.cons_append, rxLoop_cons_empty, if_neg hr,
      ih (retries - 1) acc rs (by omega)]
    congr 1
    omega

theorem rxLoop_six_empty (rs : List (List Nat)) (retries : Nat) (acc : List Nat)
    (h : retries ≤ 5) :
    rxLoop (List.replicate 6 [] ++ rs) retries acc = RxOutcome.parseError := by
  have h6 : (6 : Nat) = retries + (6 - retries) := by omega
  rw [h6, List.replicate_add, List.append_assoc,
    rxLoop_skip_empty retries retries acc _ le_rfl]
  have h5 : 6 - retries = (5 - retries) + 1 := by omega
  rw [Nat.sub_self, h5, List.replicate_succ, List.cons_append, rxLoop_cons_empty]
  simp

theorem rxLoop_run (items : List (Nat × List Nat)) (gl : Nat) (pl : List Nat)
    (rest : List (List Nat)) :
    ∀ (retries : Nat) (acc : List Nat), (items.map Prod.fst).sum + gl ≤ retries →
      (∀ x ∈ items, validPacket x.2 ∧ kindOf x.2.headI = 0) →
      validPacket pl → kindOf pl.headI ≠ 0 →
      rxLoop (readsOf (items ++ [(gl, pl)]) ++ rest) retries acc =
        RxOutcome.success
          (acc ++ ((items.map (fun x => declaredBytes x.2)).flatten ++ declaredBytes pl)) := by
  induction items with
  | nil =>
    intro retries acc hsum hits hpl hk
    obtain ⟨hne, hkind, hlen⟩ := hpl
    have hstep : rxLoop (readsOf ([] ++ [(gl, pl)]) ++ rest) retries acc =
        rxLoop (pl :: rest) (retries - gl) acc := by
      simp only [List.nil_append, readsOf]
      rw [List.append_assoc, rxLoop_skip_empty gl retries acc _ (by simpa using hsum)]
      rfl
    rw [hstep, rxLoop_cons_packet pl _ _ _ hne hkind hlen, if_neg hk]
    simp
  | cons it items ih =>
    intro retries acc hsum hits hpl hk
    obtain ⟨g, p⟩ := it
    obtain ⟨⟨hne, hkind, hlen⟩, hkin⟩ := hits (g, p) (by simp)
    have hsumg : g ≤ retries := by
      simp only [List.map_cons, List.sum_cons] at hsum
      omega
    have hsum2 : (items.map Prod.fst).sum + gl ≤ retries - g := by
      simp only [List.map_cons, List.sum_cons] at hsum
      omega
    have hits2 : ∀ x ∈ items, validPacket x.2 ∧ kindOf x.2.headI = 0 := by
      intro x hx
      exact hits x (by simp [hx])
    have hstep : rxLoop (readsOf (((g, p) :: items) ++ [(gl, pl)]) ++ rest) retries acc =
        rxLoop (p :: (readsOf (items ++ [(gl, pl)]) ++ rest)) (retries - g) acc := by
      simp only [List.cons_append, readsOf]
      rw [List.append_assoc, rxLoop_skip_empty g retries acc _ hsumg]
      rfl
    rw [hstep, rxLoop_cons_packet p _ _ _ hne hkind hlen, if_pos hkin,
      ih (retries - g) (acc ++ declaredBytes p) hsum2 hits2 hpl hk]
    simp

/-- C5: per-packet processing in receive: for a packet read of at least one
byte (`r` nonempty, bytes 8-bit wide), with `len` the low 6 bits of the
header byte, if `len ≥ count` the loop fails with a Parse error; otherwise
exactly the `len` bytes at positions 1 through `len` are appended to the
accumulation, the header byte and everything past position `len` discarded. -/
theorem claim_c5_packet_processing (r : List Nat) (rs : List (List Nat))
    (retries : Nat) (acc : List Nat) (hne : r ≠ []) (hb : r.headI < 256) :
    (r.length ≤ lenOf r.headI → rxLoop (r :: rs) retries acc = RxOutcome.parseError) ∧
    (lenOf r.headI < r.length →
      rxLoop (r :: rs) retries acc =
        if kindOf r.headI = 0 then
          rxLoop rs retries (acc ++ (r.drop 1).take (lenOf r.headI))
        else RxOutcome.success (acc ++ (r.drop 1).take (lenOf r.headI))) := by
  have hpos : 0 < r.length := List.length_pos.mpr hne
  have hkind : kindOf r.headI ≤ 3 := by
    rw [kindOf_eq]
    omega
  constructor
  · intro hge
    have hnlt : ¬ r.length < 1 := by omega
    have hle : r.length ≤ lenOf r.headI := hge
    have h4 : kindOf r.headI = 0 ∨ kindOf r.headI = 1 ∨ kindOf r.headI = 2 ∨
        kindOf r.headI = 3 := by omega
    rcases h4 with h | h | h | h <;>
      simp [rxLoop, hnlt, hle, h, packetTypeTryFrom]
  · intro hlt
    exact rxLoop_cons_packet r rs retries acc hne hkind hlt

/-- Witness for C5 at concrete inputs: a declared length of 4 in a 2-byte
read fails with Parse, and a 3-byte Final read with declared length 1
appends exactly the one byte after the header. -/
theorem claim_c5_packet_processing_witness :
    rxLoop ([68, 9] :: []) 5 [] = RxOutcome.parseError ∧
    rxLoop ([65, 7, 8] :: []) 5 [] = RxOutcome.success [7] := by
  constructor
  · exact (claim_c5_packet_processing [68, 9] [] 5 [] (by decide) (by decide)).1 (by decide)
  · have h := (claim_c5_packet_processing [65, 7, 8] [] 5 [] (by decide) (by decide)).2
      (by decide)
    rw [h]
    decide

/-- C6: loop termination in receive: after consuming a well-formed packet,
the loop continues exactly when the kind (header byte shifted right by 6)
is `Inner` (= 0); kinds 1 (Final), 2 (StdOut) and 3 (Stderr) all terminate
the loop identically, with the packet's declared payload bytes included in
the accumulation handed to header parsing. -/
theorem claim_c6_loop_termination (r : List Nat) (rs : List (List Nat))
    (retries : Nat) (acc : List Nat) (hne : r ≠ [])
    (hlen : lenOf r.headI < r.length) :
    (kindOf r.headI = 0 →
      rxLoop (r :: rs) retries acc = rxLoop rs retries (acc ++ declaredBytes r)) ∧
    (∀ k, k ∈ [1, 2, 3] → kindOf r.headI = k →
      rxLoop (r :: rs) retries acc = RxOutcome.success (acc ++ declaredBytes r)) := by
  constructor
  · intro hk
    rw [rxLoop_cons_packet r rs retries acc hne (by omega) hlen, if_pos hk]
  · intro k hkmem hk
    have hkc : k = 1 ∨ k = 2 ∨ k = 3 := by simpa using hkmem
    have hk3 : kindOf r.headI ≤ 3 := by omega
    have hk0 : ¬ (kindOf r.headI = 0) := by omega
    rw [rxLoop_cons_packet r rs retries acc hne hk3 hlen, if_neg hk0]

/-- Witness for C6 at concrete inputs: an Inner packet continues the loop,
and Final (1), StdOut (2) and Stderr (3) packets all stop it with the
payload byte accumulated. -/
theorem claim_c6_loop_termination_witness :
    rxLoop ([1, 9] :: [[65, 3]]) 5 [] = rxLoop [[65, 3]] 5 ([] ++ declaredBytes [1, 9]) ∧
    rxLoop ([65, 9] :: []) 5 [] = RxOutcome.success ([] ++ declaredBytes [65, 9]) ∧
    rxLoop ([129, 9] :: []) 5 [] = RxOutcome.success ([] ++ declaredBytes [129, 9]) ∧
    rxLoop ([193, 9] :: []) 5 [] = RxOutcome.success ([] ++ declaredBytes [193, 9]) :=
  ⟨(claim_c6_loop_termination [1, 9] [[65, 3]] 5 [] (by decide) (by decide)).1 (by decide),
   (claim_c6_loop_termination [65, 9] [] 5 [] (by decide) (by decide)).2 1 (by decide)
     (by decide),
   (claim_c6_loop_termination [129, 9] [] 5 [] (by decide) (by decide)).2 2 (by decide)
     (by decide),
   (claim_c6_loop_termination [193, 9] [] 5 [] (by decide) (by decide)).2 3 (by decide)
     (by decide)⟩

/-- Counterexample to C4 as stated: the claim asserts that a receive call
with five or fewer empty reads and otherwise valid packets succeeds, but
the borrowed-scratch variant's receive has no retry budget — a single
0-byte read (here followed by a perfectly valid Final packet) fails with a
Parse error, while the same packet alone succeeds. -/
theorem claim_c4_counterexample :
    rxb 100 [[], [68, 1, 0, 0, 0]] = RxbResult.parseError ∧
    rxb 100 [[68, 1, 0, 0, 0]] =
      RxbResult.ok (CommandResponse.mk 1 CommandResponseStatus.Success 0 []) := by
  constructor <;> decide

/-- C4 amended: in the owned-vector (`hf2` crate) receive the retry budget
is a fixed 5, global to the whole call, decremented only on empty reads
and never replenished: six consecutive empty reads fail with a Parse
error, and a call whose reads contain at most five empty reads in total,
all other reads forming a valid packet run, succeeds.  The borrowed-scratch
variant's receive instead fails with a Parse error on the first empty
read. -/
theorem claim_c4_empty_read_retries :
    (∀ rs : List (List Nat), rx (List.replicate 6 [] ++ rs) = RxFinal.parseError) ∧
    (∀ (items : List (Nat × List Nat)) (gl : Nat) (pl : List Nat)
       (rest : List (List Nat)) (resp : CommandResponse),
       (items.map Prod.fst).sum + gl ≤ 5 →
       (∀ x ∈ items, validPacket x.2 ∧ kindOf x.2.headI = 0) →
       validPacket pl → kindOf pl.headI ≠ 0 →
       commandResponseTryFrom
         ((items.map (fun x => declaredBytes x.2)).flatten ++ declaredBytes pl) =
         some resp →
       rx (readsOf (items ++ [(gl, pl)]) ++ rest) = RxFinal.ok resp) ∧
    (∀ (rs : List (List Nat)) (scratchLen offset : Nat) (acc : List Nat),
       rxbLoop scratchLen ([] :: rs) offset acc = RxbResult.parseError) := by
  refine ⟨?_, ?_, ?_⟩
  · intro rs
    rw [rx, rxLoop_six_empty rs 5 [] (by omega)]
  · intro items gl pl rest resp hsum hits hpl hk hparse
    rw [rx, rxLoop_run items gl pl rest 5 [] hsum hits hpl hk]
    simp [hparse]
  · intro rs scratchLen offset acc
    simp [rxbLoop]

/-- Witness for C4 at concrete inputs: six empty reads fail; five empty
reads followed by one valid Final packet succeed in the owned-vector
receive; one empty read fails in the borrowed-scratch receive. -/
theorem claim_c4_empty_read_retries_witness :
    rx (List.replicate 6 [] ++ []) = RxFinal.parseError ∧
    rx (readsOf ([] ++ [(5, [68, 1, 0, 0, 0])]) ++ []) =
      RxFinal.ok (CommandResponse.mk 1 CommandResponseStatus.Success 0 []) ∧
    rxbLoop 100 ([] :: [[68, 1, 0, 0, 0]]) 0 [] = RxbResult.parseError :=
  ⟨claim_c4_empty_read_retries.1 [],
   claim_c4_empty_read_retries.2.1 [] 5 [68, 1, 0, 0, 0] []
     (CommandResponse.mk 1 CommandResponseStatus.Success 0 [])
     (by decide) (by simp) (by decide) (by decide) (by decide),
   claim_c4_empty_read_retries.2.2 [[68, 1, 0, 0, 0]] 100 0 []⟩

theorem statusTryFrom_none_iff (v : Nat) :
    commandResponseStatusTryFrom v = none ↔ 2 < v := by
  match v with
  | 0 => simp [commandResponseStatusTryFrom]
  | 1 => simp [commandResponseStatusTryFrom]
  | 2 => simp [commandResponseStatusTryFrom]
  | n + 3 =>
    have hgt : (2 : Nat) < n + 3 := by omega
    simp [commandResponseStatusTryFrom, hgt]

theorem statusTryFrom_code (v : Nat) (s : CommandResponseStatus)
    (h : commandResponseStatusTryFrom v = some s) : s.code = v := by
  match v with
  | 0 =>
    simp only [commandResponseStatusTryFrom, Option.some.injEq] at h
    rw [← h]
    rfl
  | 1 =>
    simp only [commandResponseStatusTryFrom, Option.some.injEq] at h
    rw [← h]
    rfl
  | 2 =>
    simp only [commandResponseStatusTryFrom, Option.some.injEq] at h
    rw [← h]
    rfl
  | n + 3 => simp [commandResponseStatusTryFrom] at h

/-- C7: response header parse: parsing the accumulated buffer fails with a
Parse error exactly when it has fewer than 4 bytes or byte 2 is outside
`{0, 1, 2}`; on success the tag is the little-endian u16 at bytes 0-1,
the status's numeric code is byte 2, status_info is byte 3, and the data
is exactly bytes 4 onward, uninterpreted. -/
theorem claim_c7_response_parse (b : List Nat) :
    (commandResponseTryFrom b = none ↔ b.length < 4 ∨ 2 < b.getD 2 0) ∧
    (∀ resp, commandResponseTryFrom b = some resp →
       resp.tag = b.getD 0 0 + 256 * b.getD 1 0 ∧
       resp.status.code = b.getD 2 0 ∧
       resp.status_info = b.getD 3 0 ∧
       resp.data = b.drop 4) := by
  match b with
  | [] => simp [commandResponseTryFrom]
  | [b0] => simp [commandResponseTryFrom]
  | [b0, b1] => simp [commandResponseTryFrom]
  | [b0, b1, b2] => simp [commandResponseTryFrom]
  | b0 :: b1 :: b2 :: b3 :: rest =>
    cases hstatus : commandResponseStatusTryFrom b2 with
    | none =>
      have hv : 2 < b2 := (statusTryFrom_none_iff b2).mp hstatus
      constructor
      · simp [commandResponseTryFrom, hstatus, hv]
      · intro resp hresp
        simp [commandResponseTryFrom, hstatus] at hresp
    | some s =>
      have hv : ¬ (2 < b2) := by
        intro hgt
        rw [(statusTryFrom_none_iff b2).mpr hgt] at hstatus
        exact Option.noConfusion hstatus
      constructor
      · simp [commandResponseTryFrom, hstatus, hv]
      · intro resp hresp
        simp only [commandResponseTryFrom, hstatus, Option.some.injEq] at hresp
        rw [← hresp]
        refine ⟨rfl, ?_, rfl, rfl⟩
        simpa using statusTryFrom_code b2 s hstatus

/-- Witness for C7 at concrete inputs: a 3-byte buffer fails to parse, and
`[1, 0, 2, 7, 9]` parses to tag 1, ExecutionError (code 2), status_info 7,
data `[9]`. -/
theorem claim_c7_response_parse_witness :
    commandResponseTryFrom [9, 9, 9] = none ∧
    ((CommandResponse.mk 1 CommandResponseStatus.ExecutionError 7 [9]).tag =
        ([1, 0, 2, 7, 9] : List Nat).getD 0 0 +
          256 * ([1, 0, 2, 7, 9] : List Nat).getD 1 0 ∧
      (CommandResponse.mk 1 CommandResponseStatus.ExecutionError 7 [9]).status.code =
        ([1, 0, 2, 7, 9] : List Nat).getD 2 0 ∧
      (CommandResponse.mk 1 CommandResponseStatus.ExecutionError 7 [9]).status_info =
        ([1, 0, 2, 7, 9] : List Nat).getD 3 0 ∧
      (CommandResponse.mk 1 CommandResponseStatus.ExecutionError 7 [9]).data =
        ([1, 0, 2, 7, 9] : List Nat).drop 4) :=
  ⟨(claim_c7_response_parse [9, 9, 9]).1.mpr (Or.inl (by decide)),
   (claim_c7_response_parse [1, 0, 2, 7, 9]).2
     (CommandResponse.mk 1 CommandResponseStatus.ExecutionError 7 [9]) (by decide)⟩

theorem rxbLoop_cons_packet (scratchLen : Nat) (r : List Nat) (rs : List (List Nat))
    (offset : Nat) (acc : List Nat) (hne : r ≠ []) (hkind : kindOf r.headI ≤ 3)
    (hlen : lenOf r.headI < r.length) :
    rxbLoop scratchLen (r :: rs) offset acc =
      if 0 < lenOf r.headI ∧ scratchLen < offset + lenOf r.headI then RxbResult.panic
      else if kindOf r.headI = 0 then
        rxbLoop scratchLen rs (offset + lenOf r.headI) (acc ++ declaredBytes r)
      else
        match commandResponseTryFrom (acc ++ declaredBytes r) with
        | some resp => RxbResult.ok resp
        | none => RxbResult.parseError := by
  have hpos : 0 < r.length := List.length_pos.mpr hne
  have hnlt : ¬ r.length < 1 := by omega
  have hnle : ¬ r.length ≤ lenOf r.headI := by omega
  have h4 : kindOf r.headI = 0 ∨ kindOf r.headI = 1 ∨ kindOf r.headI = 2 ∨
      kindOf r.headI = 3 := by omega
  rcases h4 with h | h | h | h <;>
    simp [rxbLoop, hnlt, hnle, h, packetTypeTryFrom]

theorem rxbLoop_overflow (scratchLen : Nat) (ps : List (List Nat)) :
    ∀ (pl : List Nat) (rest : List (List Nat)) (offset : Nat) (acc : List Nat),
      offset ≤ scratchLen →
      (∀ p ∈ ps, validPacket p ∧ kindOf p.headI = 0) →
      validPacket pl →
      scratchLen < offset + ((ps ++ [pl]).map (fun p => lenOf p.headI)).sum →
      rxbLoop scratchLen (ps ++ pl :: rest) offset acc = RxbResult.panic := by
  induction ps with
  | nil =>
    intro pl rest offset acc hoff _ hpl hover
    obtain ⟨hne, hkind, hlen⟩ := hpl
    have hsum : ((([] : List (List Nat)) ++ [pl]).map (fun p => lenOf p.headI)).sum =
        lenOf pl.headI := by simp
    rw [hsum] at hover
    rw [List.nil_append, rxbLoop_cons_packet scratchLen pl rest offset acc hne hkind hlen,
      if_pos ⟨by omega, by omega⟩]
  | cons p ps ih =>
    intro pl rest offset acc hoff hps hpl hover
    obtain ⟨⟨hne, hkind, hlen⟩, hkin⟩ := hps p (by simp)
    have hps2 : ∀ q ∈ ps, validPacket q ∧ kindOf q.headI = 0 := by
      intro q hq
      exact hps q (by simp [hq])
    by_cases hnow : scratchLen < offset + lenOf p.headI
    · rw [List.cons_append, rxbLoop_cons_packet scratchLen p _ offset acc hne hkind hlen,
        if_pos ⟨by omega, hnow⟩]
    · have hrec : scratchLen <
          (offset + lenOf p.headI) + ((ps ++ [pl]).map (fun p => lenOf p.headI)).sum := by
        simp only [List.cons_append, List.map_cons, List.sum_cons] at hover
        omega
      rw [List.cons_append, rxbLoop_cons_packet scratchLen p _ offset acc hne hkind hlen,
        if_neg (by omega), if_pos hkin]
      exact ih pl rest (offset + lenOf p.headI) (acc ++ declaredBytes p) (by omega)
        hps2 hpl hrec

/-- C9: in the borrowed-scratch variant, receive writes the reassembled
payload into the caller-supplied scratch slice by unchecked indexing: for
every otherwise-valid packet run whose total declared payload exceeds the
scratch slice's length, the call panics (out-of-bounds index) instead of
returning an error — a scratch slice at least as long as the reassembled
payload is a precondition of the interface. -/
theorem claim_c9_scratch_overflow_panics (scratchLen : Nat) (ps : List (List Nat))
    (pl : List Nat) (rest : List (List Nat))
    (hps : ∀ p ∈ ps, validPacket p ∧ kindOf p.headI = 0)
    (hpl : validPacket pl) (hterm : kindOf pl.headI ≠ 0)
    (hover : scratchLen < ((ps ++ [pl]).map (fun p => lenOf p.headI)).sum) :
    rxb scratchLen (ps ++ pl :: rest) = RxbResult.panic :=
  rxbLoop_overflow scratchLen ps pl rest 0 [] (Nat.zero_le _) hps hpl
    (by simpa using hover)

/-- Witness for C9 at a concrete input: a Final packet declaring 4 payload
bytes against a 3-byte scratch slice panics. -/
theorem claim_c9_scratch_overflow_panics_witness :
    rxb 3 ([] ++ [68, 1, 0, 0, 0] :: []) = RxbResult.panic :=
  claim_c9_scratch_overflow_panics 3 [] [68, 1, 0, 0, 0] [] (by simp) (by decide)
    (by decide) (by decide)

/-- C10: the packet-kind value receive hands to the kind decoder is the
header byte shifted right by 6, which for every 8-bit header byte lies in
`0..3`, and all four 2-bit values decode to a defined kind — so the
kind-decode Parse branch is unreachable during receive. -/
theorem claim_c10_kind_decode_total (b : Nat) (hb : b < 256) :
    kindOf b ≤ 3 ∧ (packetTypeTryFrom (kindOf b)).isSome = true ∧
    packetTypeTryFrom 0 = some PacketType.Inner ∧
    packetTypeTryFrom 1 = some PacketType.Final ∧
    packetTypeTryFrom 2 = some PacketType.StdOut ∧
    packetTypeTryFrom 3 = some PacketType.Stderr := by
  have h1 : kindOf b ≤ 3 := by
    rw [kindOf_eq]
    omega
  refine ⟨h1, ?_, rfl, rfl, rfl, rfl⟩
  have h4 : kindOf b = 0 ∨ kindOf b = 1 ∨ kindOf b = 2 ∨ kindOf b = 3 := by omega
  rcases h4 with h | h | h | h <;> simp [h, packetTypeTryFrom]

/-- Witness for C10 at a concrete input: header byte 255 (all bits set)
decodes to a kind value of 3, which the decoder accepts. -/
theorem claim_c10_kind_decode_total_witness :
    kindOf 255 ≤ 3 ∧ (packetTypeTryFrom (kindOf 255)).isSome = true ∧
    packetTypeTryFrom 0 = some PacketType.Inner ∧
    packetTypeTryFrom 1 = some PacketType.Final ∧
    packetTypeTryFrom 2 = some PacketType.StdOut ∧
    packetTypeTryFrom 3 = some PacketType.Stderr :=
  claim_c10_kind_decode_total 255 (by decide)

end HF2
